import Mathlib

/-!
Verification of the mtbot notification core (Go package `db`) against its
specification.  The Go source is shallowly embedded: `time.Time` becomes an
absolute instant in nanoseconds paired with a location (a UTC-offset function),
durations become `Int` nanosecond counts, Go slices become Lean lists, the two
Go maps of `Storage` become association lists, and the shared `*userEvent`
pointers become indices (`Nat`) into an explicit heap list, so that the
in-place timestamp mutation performed by `notifications` is visible to both
the global item list and the per-user index, exactly as in the source.
File I/O (`flush`) is modelled by a boolean parameter saying whether the
write succeeds.
-/

/-- A Go `time.Location`, reduced to what the embedded code observes:
the UTC offset in seconds at a given absolute instant (`Time.Zone`). -/
structure GoLocation where
  offsetAt : Int → Int

/-- A Go `time.Time`: absolute instant in nanoseconds since the epoch,
together with its attached location. -/
structure GoTime where
  loc : GoLocation
  ns : Int

/-- Go `Time.Add`: shift the instant, keep the location. -/
def GoTime.add (t : GoTime) (d : Int) : GoTime := { t with ns := t.ns + d }

/-- Nanoseconds in one second (`time.Second`). -/
def secondNs : Int := 1000000000

/-- Embedding of `nextAlarm(alarm, dt time.Time, offset time.Duration)`:
return `alarm` if it is strictly after `dt`; otherwise advance `alarm` by
`ceil(diff/offset)` whole periods (Go integer division truncates toward zero
and `%` follows the dividend, hence `Int.tdiv`/`Int.tmod`), then apply the
spring/autumn correction `time.Second * (offsetBefore - offsetAfter)`. -/
def nextAlarm (alarm dt : GoTime) (offset : Int) : GoTime :=
  if dt.ns < alarm.ns then alarm
  else
    let diff := dt.ns - alarm.ns
    let periods := diff.tdiv offset + (if 0 < diff.tmod offset then 1 else 0)
    let next := alarm.add (offset * periods)
    let offsetBefore := alarm.loc.offsetAt alarm.ns
    let offsetAfter := next.loc.offsetAt next.ns
    next.add (secondNs * (offsetBefore - offsetAfter))

/-- A location with constant zero UTC offset (plain UTC). -/
def utcLoc : GoLocation := ⟨fun _ => 0⟩

/-- A location whose UTC offset jumps from 0 to 3600 seconds at instant 5:
a minimal daylight-saving spring-forward transition. -/
def dstLoc : GoLocation := ⟨fun t => if t < 5 then 0 else 3600⟩

/-- The number of whole periods computed by `nextAlarm` (integer division
rounding up on a remainder) covers at least the elapsed time `diff`. -/
theorem ceil_periods_ge {diff p : Int} (hd : 0 ≤ diff) (hp : 0 < p) :
    diff ≤ p * (diff.tdiv p + if 0 < diff.tmod p then 1 else 0) := by
  have hdm := Int.tdiv_add_tmod diff p
  by_cases hm : 0 < diff.tmod p
  · have hlt := Int.tmod_lt_of_pos diff hp
    simp only [if_pos hm]
    nlinarith
  · have h0 : diff.tmod p = 0 := le_antisymm (not_lt.mp hm) (Int.tmod_nonneg p hd)
    simp only [if_neg hm, add_zero]
    omega

/-- When the reference instant is not after the anchor, `nextAlarm` returns the
anchor itself: strictly-after anchors return in the first branch, and an anchor
equal to `dt` advances by zero periods and gets a zero zone correction. -/
theorem nextAlarm_of_now_le (a n : GoTime) (p : Int) (h : n.ns ≤ a.ns) :
    nextAlarm a n p = a := by
  by_cases hlt : n.ns < a.ns
  · rw [nextAlarm, if_pos hlt]
  · have heq : n.ns = a.ns := le_antisymm h (not_lt.mp hlt)
    obtain ⟨l, t⟩ := a
    simp [nextAlarm, GoTime.add, heq, Int.zero_tdiv, Int.zero_tmod]

/-- C3 counterexample: with a spring-forward location (offset jumps from 0 to
3600 s at instant 5), anchor at instant 0, reference instant 10 and period 7,
the advanced instant 14 lies after the transition, so the zone-offset
correction subtracts 3600 s and the returned instant is strictly before `now`.
This refutes the claim that `nextAlarm(anchor, now, period) ≥ now` holds for
all inputs including after the DST correction. -/
theorem c3_counterexample :
    (0 : Int) < 7 ∧
      (nextAlarm ⟨dstLoc, 0⟩ ⟨dstLoc, 10⟩ 7).ns < (GoTime.mk dstLoc 10).ns := by
  constructor
  · decide
  · decide

/-- C3 (amended): for every anchor, reference instant `now` and positive
period, if the anchor's location has a constant UTC offset (no zone transition
affects the correction), then `nextAlarm(anchor, now, period)` is at or after
`now`; with a transition between the anchor and the advanced instant the
result can precede `now` by the offset difference. -/
theorem c3_nextAlarm_ge_now_of_fixed_offset (a n : GoTime) (p : Int) (hp : 0 < p)
    (hz : ∀ t, a.loc.offsetAt t = a.loc.offsetAt a.ns) :
    n.ns ≤ (nextAlarm a n p).ns := by
  by_cases hlt : n.ns < a.ns
  · rw [nextAlarm, if_pos hlt]; exact le_of_lt hlt
  · have hle : a.ns ≤ n.ns := not_lt.mp hlt
    have hd : 0 ≤ n.ns - a.ns := by omega
    have hceil := ceil_periods_ge (p := p) hd hp
    simp only [nextAlarm, if_neg hlt, GoTime.add, hz, sub_self, mul_zero, add_zero]
    omega

/-- Witness for C3 (amended) at anchor 0, now 23, period 7 in plain UTC. -/
theorem c3_witness :
    (0 : Int) < 7 ∧
      (GoTime.mk utcLoc 23).ns ≤ (nextAlarm ⟨utcLoc, 0⟩ ⟨utcLoc, 23⟩ 7).ns :=
  ⟨by decide,
   c3_nextAlarm_ge_now_of_fixed_offset ⟨utcLoc, 0⟩ ⟨utcLoc, 23⟩ 7 (by decide)
     (fun _ => rfl)⟩

/-- C7 counterexample: with the spring-forward location, anchor 0, now 10 and
period 7, the first application returns instant 14 − 3600 s; re-applying
`nextAlarm` to that result advances it again and lands on a different instant,
refuting idempotence as stated. -/
theorem c7_counterexample :
    (nextAlarm (nextAlarm ⟨dstLoc, 0⟩ ⟨dstLoc, 10⟩ 7) ⟨dstLoc, 10⟩ 7).ns ≠
      (nextAlarm ⟨dstLoc, 0⟩ ⟨dstLoc, 10⟩ 7).ns := by
  decide

/-- C7 (amended): `nextAlarm` is idempotent at every input whose first result
is at or after `now` (always the case without a zone-offset change): a result
not before `now` is returned unchanged by the second application. -/
theorem c7_nextAlarm_idem_of_result_ge_now (a n : GoTime) (p : Int)
    (h : n.ns ≤ (nextAlarm a n p).ns) :
    nextAlarm (nextAlarm a n p) n p = nextAlarm a n p :=
  nextAlarm_of_now_le _ _ _ h

/-- Witness for C7 (amended) at anchor 0, now 5, period 10 in plain UTC. -/
theorem c7_witness :
    (GoTime.mk utcLoc 5).ns ≤ (nextAlarm ⟨utcLoc, 0⟩ ⟨utcLoc, 5⟩ 10).ns ∧
      nextAlarm (nextAlarm ⟨utcLoc, 0⟩ ⟨utcLoc, 5⟩ 10) ⟨utcLoc, 5⟩ 10 =
        nextAlarm ⟨utcLoc, 0⟩ ⟨utcLoc, 5⟩ 10 :=
  ⟨by decide, c7_nextAlarm_idem_of_result_ge_now ⟨utcLoc, 0⟩ ⟨utcLoc, 5⟩ 10 (by decide)⟩

/-- C9: for every anchor at or after the reference instant `now` (equality
included), `nextAlarm` returns the anchor itself unchanged: a strictly later
anchor returns in the first branch, and an anchor exactly equal to `now`
advances by zero periods with a zero zone correction. -/
theorem c9_nextAlarm_returns_anchor_when_due (a n : GoTime) (p : Int)
    (h : n.ns ≤ a.ns) : nextAlarm a n p = a :=
  nextAlarm_of_now_le a n p h

/-- Witness for C9: an anchor equal to `now` (the boundary case) is returned
unchanged. -/
theorem c9_witness :
    (GoTime.mk utcLoc 100).ns ≤ (GoTime.mk utcLoc 100).ns ∧
      nextAlarm ⟨utcLoc, 100⟩ ⟨utcLoc, 100⟩ 7 = ⟨utcLoc, 100⟩ :=
  ⟨by decide, c9_nextAlarm_returns_anchor_when_due ⟨utcLoc, 100⟩ ⟨utcLoc, 100⟩ 7 (by decide)⟩

/-- Value of one decimal digit, `none` for a non-digit character. -/
def digitVal (c : Char) : Option Nat :=
  if '0' ≤ c ∧ c ≤ '9' then some (c.toNat - '0'.toNat) else none

/-- Accumulate a decimal number over characters, failing on a non-digit. -/
def digitsVal : List Char → Nat → Option Nat
  | [], acc => some acc
  | c :: t, acc =>
    match digitVal c with
    | none => none
    | some d => digitsVal t (acc * 10 + d)

/-- Go `strconv.Atoi` on the characters of the token: an optional sign
followed by at least one digit, nothing else (machine-word overflow of Go's
64-bit range is not modelled; the program only handles small delay values). -/
def goAtoi (cs : List Char) : Option Int :=
  match cs with
  | [] => none
  | '+' :: t => if t = [] then none else (digitsVal t 0).map Int.ofNat
  | '-' :: t => if t = [] then none else (digitsVal t 0).map (fun m => -(m : Int))
  | _ => (digitsVal cs 0).map Int.ofNat

/-- The space character test used by `strings.Trim(s, " ")`. -/
def isSpaceChar (c : Char) : Bool := c = ' '

/-- Go `strings.Trim(s, " ")`: strip leading and trailing spaces. -/
def goTrim (cs : List Char) : List Char :=
  ((cs.dropWhile isSpaceChar).reverse.dropWhile isSpaceChar).reverse

/-- Go `strings.Split(s, " ")`: cut at every single space, keeping empty
fields; the empty string yields one empty field. -/
def splitSpaces : List Char → List (List Char)
  | [] => [[]]
  | c :: t =>
    if c = ' ' then [] :: splitSpaces t
    else
      match splitSpaces t with
      | [] => [[c]]
      | h :: r => (c :: h) :: r

/-- The validation errors produced by `parseUserRow`, one constructor per
`fmt.Errorf` site. -/
inductive ParseErr where
  | badShape (n : Nat)
  | badToken (tok : List Char)
  | tooSmall (j minD : Int)
  | tooLarge (j maxD : Int)
  | tooMany (len maxDelays : Int)
  deriving DecidableEq

/-- The per-token loop of `parseUserRow`: `strconv.Atoi` each token, then
reject a value below `minD` (only when `minD > 0`) or above `maxD` (only when
`maxD > 0`), stopping at the first offending token. -/
def parseDelays (minD maxD : Int) : List (List Char) → Except ParseErr (List Int)
  | [] => Except.ok []
  | d :: rest =>
    match goAtoi d with
    | none => Except.error (ParseErr.badToken d)
    | some j =>
      if 0 < minD ∧ j < minD then Except.error (ParseErr.tooSmall j minD)
      else if 0 < maxD ∧ maxD < j then Except.error (ParseErr.tooLarge j maxD)
      else
        match parseDelays minD maxD rest with
        | Except.error e => Except.error e
        | Except.ok js => Except.ok (j :: js)

/-- Embedding of `parseUserRow(userItem, minD, maxD, maxDelays)`: require a
two-field row, split the trimmed second field on spaces, parse and
range-check every token, collapse duplicates (Go collects the values into a
map), reject more than `maxDelays` distinct values (only when
`maxDelays > 0`), and return the trimmed identifier with the sorted distinct
delay list. -/
def parseUserRow (userItem : List String) (minD maxD maxDelays : Int) :
    Except ParseErr (String × List Int) :=
  match userItem with
  | [nameStr, valStr] =>
    match parseDelays minD maxD (splitSpaces (goTrim valStr.data)) with
    | Except.error e => Except.error e
    | Except.ok js =>
      let uniq := js.dedup
      if 0 < maxDelays ∧ maxDelays < (uniq.length : Int) then
        Except.error (ParseErr.tooMany uniq.length maxDelays)
      else
        Except.ok ((goTrim nameStr.data).asString,
          List.insertionSort (fun a b => a ≤ b) uniq)
  | other => Except.error (ParseErr.badShape other.length)

/-- The parsing loop of `loadUsers` over the rows read from the CSV file:
every row goes through `parseUserRow` with all three limits set to zero
("ignore delay limit during reading file data"), and the first error aborts
the load. -/
def loadUsersRecords (records : List (List String)) :
    Except ParseErr (List (String × List Int)) :=
  match records with
  | [] => Except.ok []
  | row :: rest =>
    match parseUserRow row 0 0 0 with
    | Except.error e => Except.error e
    | Except.ok (n, ds) =>
      match loadUsersRecords rest with
      | Except.error e => Except.error e
      | Except.ok us => Except.ok ((n, ds) :: us)

/-- A row whose shape is two fields and whose delay tokens are all
well-formed integers, with no constraint at all on their values. -/
def rowWellFormed (row : List String) : Prop :=
  ∃ a b, row = [a, b] ∧ ∀ t ∈ splitSpaces (goTrim b.data), (goAtoi t).isSome

/-- With both range limits at zero every range check is skipped. -/
theorem parseDelays_zero_ok (toks : List (List Char))
    (h : ∀ t ∈ toks, (goAtoi t).isSome) :
    ∃ js, parseDelays 0 0 toks = Except.ok js := by
  induction toks with
  | nil => exact ⟨[], rfl⟩
  | cons d rest ih =>
    obtain ⟨j, hj⟩ := Option.isSome_iff_exists.mp (h d (List.mem_cons_self d rest))
    obtain ⟨js, hjs⟩ := ih fun t ht => h t (List.mem_cons_of_mem d ht)
    refine ⟨j :: js, ?_⟩
    simp [parseDelays, hj, hjs]

/-- C10: the startup loader applies none of the delay limits: `loadUsers`
invokes `parseUserRow` with zero for `minDelay`, `maxDelay` and `maxCount`,
so every record list whose rows have two fields and well-formed integer delay
tokens is accepted, regardless of how small, large or numerous the values
are. -/
theorem c10_loadUsers_ignores_limits (records : List (List String))
    (h : ∀ row ∈ records, rowWellFormed row) :
    ∃ us, loadUsersRecords records = Except.ok us := by
  induction records with
  | nil => exact ⟨[], rfl⟩
  | cons row rest ih =>
    obtain ⟨a, b, hab, htoks⟩ := h row (List.mem_cons_self row rest)
    obtain ⟨us, hus⟩ := ih fun r hr => h r (List.mem_cons_of_mem row hr)
    obtain ⟨js, hjs⟩ := parseDelays_zero_ok _ htoks
    subst hab
    refine ⟨((goTrim a.data).asString,
      List.insertionSort (fun a b => a ≤ b) js.dedup) :: us, ?_⟩
    simp [loadUsersRecords, parseUserRow, hjs, hus]

/-- Witness for C10: a row with delay values 77777 and 0 — far outside any
configured [min_delay, max_delay] window — loads successfully. -/
theorem c10_witness :
    (∀ row ∈ [["u", "77777 0"]], rowWellFormed row) ∧
      ∃ us, loadUsersRecords [["u", "77777 0"]] = Except.ok us := by
  have h : ∀ row ∈ [["u", "77777 0"]], rowWellFormed row := by
    intro row hr
    rw [List.mem_singleton] at hr
    exact ⟨"u", "77777 0", hr, by decide⟩
  exact ⟨h, c10_loadUsers_ignores_limits _ h⟩

/-- Embedding of the `Event` struct: the storage core only observes the text
fields and the resolved scheduling fields (`offset` = recurrence period in
nanoseconds, `alarm` = anchor instant). -/
structure Event where
  title : String
  url : String
  message : String
  offset : Int
  alarm : GoTime

/-- Embedding of `userEvent`: one alarm record of one user. -/
structure UserEvent where
  user : String
  event : Event
  delay : Int
  delayOffset : Int
  timestamp : GoTime

/-- Embedding of `userMsg` (the bot handle is dropped, and the RFC3339 `start`
text is represented by the instant it formats). -/
structure Msg where
  user : String
  text : String
  url : String
  start : Int
  deriving DecidableEq

/-- Placeholder event used as the default of heap dereferences. -/
def defaultEvent : Event := ⟨"", "", "", 0, ⟨utcLoc, 0⟩⟩

/-- Placeholder entry used as the default of heap dereferences. -/
def defaultUserEvent : UserEvent := ⟨"", defaultEvent, 0, 0, ⟨utcLoc, 0⟩⟩

/-- Dereference a `*userEvent`: the Go pointers shared between `Storage.items`
and `Storage.userIdx` are modelled as indices into an explicit heap list. -/
def heapGet (h : List UserEvent) (i : Nat) : UserEvent := h.getD i defaultUserEvent

/-- `userEvent.Message`: recipient, title and body, URL, and the delay-adjusted
start instant (`timestamp.Add(delayOffset)`). -/
def UserEvent.message (ue : UserEvent) : Msg :=
  ⟨ue.user, ue.event.title ++ "\n\n" ++ ue.event.message, ue.event.url,
   (ue.timestamp.add ue.delayOffset).ns⟩

/-- Lookup in a Go map modelled as an association list. -/
def alookup {α : Type} (k : String) : List (String × α) → Option α
  | [] => none
  | p :: t => if p.1 = k then some p.2 else alookup k t

/-- Go map assignment `m[k] = v`: replace the binding if present, else add it. -/
def upsert {α : Type} (k : String) (v : α) : List (String × α) → List (String × α)
  | [] => [(k, v)]
  | p :: t => if p.1 = k then (k, v) :: t else p :: upsert k v t

/-- `sort.Slice(items, ...Before...)`: order entries by firing instant. -/
def sortByTs (l : List UserEvent) : List UserEvent :=
  List.insertionSort (fun a b => a.timestamp.ns ≤ b.timestamp.ns) l

/-- The same sort on entry indices, dereferencing through the heap. -/
def sortByIds (h : List UserEvent) (ids : List Nat) : List Nat :=
  List.insertionSort
    (fun a b => (heapGet h a).timestamp.ns ≤ (heapGet h b).timestamp.ns) ids

/-- `user.init(events)`: for every event recompute the next alarm relative to
`now`, produce one entry per delay with firing instant `nextAlarm − delay`
minutes, and sort the result by firing instant. -/
def userInitEntries (name : String) (delays : List Int) (events : List Event)
    (now : GoTime) : List UserEvent :=
  sortByTs ((events.map fun e =>
    let na := nextAlarm e.alarm now e.offset
    delays.map fun d =>
      let offset : Int := d * 60 * secondNs
      ⟨name, e, d, offset, na.add (-offset)⟩).flatten)

/-- The `[limits]` TOML section. -/
structure Limits where
  Users : Int
  Delays : Int
  MinDelay : Int
  MaxDelay : Int

/-- The error values returned by storage operations: the three exported
sentinel errors, plus one constructor per `fmt.Errorf` family (user-count
limit, wrapped `parseUserRow` failure, wrapped `flush` failure). -/
inductive StorageErr where
  | unknownUser
  | knownUser
  | setUser
  | tooManyUsers (n lim : Int)
  | parseFail (e : ParseErr)
  | flushErr
  deriving DecidableEq

/-- Embedding of the `Storage` struct.  `heap` holds the `userEvent` objects;
`items` and the `userIdx` values hold indices into it, mirroring the shared
`*userEvent` pointers of the source.  The lock and the backing file name are
not represented; `flush` outcomes enter as a boolean parameter of each
mutating operation. -/
structure Storage where
  events : List Event
  heap : List UserEvent
  items : List Nat
  limits : Limits
  users : List (String × List Int)
  userIdx : List (String × List Nat)

/-- `Storage.Start`: reject when the user count has already reached the
configured maximum (this check comes first in the source), then when the user
is already known; otherwise add an empty profile and an empty per-user entry
list ("no new s.items for new user") and flush. -/
def Storage.Start (flushOk : Bool) (s : Storage) (userName : String) :
    Storage × Option StorageErr :=
  if s.limits.Users ≤ (s.users.length : Int) then
    (s, some (StorageErr.tooManyUsers s.users.length s.limits.Users))
  else if (alookup userName s.users).isSome then (s, some StorageErr.knownUser)
  else
    let s1 := { s with users := upsert userName [] s.users,
                       userIdx := upsert userName [] s.userIdx }
    (s1, if flushOk then none else some StorageErr.flushErr)

/-- `Storage.Stop`: reject unknown users, otherwise delete the profile and the
per-user index entry, keep only other users' items, re-sort, and flush. -/
def Storage.Stop (flushOk : Bool) (s : Storage) (userName : String) :
    Storage × Option StorageErr :=
  if (alookup userName s.users).isSome then
    let s1 := { s with users := s.users.filter fun p => p.1 ≠ userName,
                       userIdx := s.userIdx.filter fun p => p.1 ≠ userName,
                       items := sortByIds s.heap
                         (s.items.filter fun id => (heapGet s.heap id).user ≠ userName) }
    (s1, if flushOk then none else some StorageErr.flushErr)
  else (s, some StorageErr.unknownUser)

/-- `Storage.Set`: reject empty values, then unknown users, then parse the
delays — the source passes `s.limits.MaxDelay` as `parseUserRow`'s `minD`
argument and `s.limits.MinDelay` as its `maxD` argument, and this embedding
reproduces that call site verbatim.  On success the new entries are built and
installed into `users` and `userIdx`, then `flush` runs; only if it succeeds
are the old entries of this user spliced out of the global list, the new ones
appended, and the list re-sorted. -/
def Storage.Set (flushOk : Bool) (now : GoTime) (s : Storage)
    (userName values : String) : Storage × Option StorageErr :=
  if values = "" then (s, some StorageErr.setUser)
  else
    match alookup userName s.users with
    | none => (s, some StorageErr.unknownUser)
    | some _ =>
      match parseUserRow [userName, values] s.limits.MaxDelay s.limits.MinDelay
          s.limits.Delays with
      | Except.error e => (s, some (StorageErr.parseFail e))
      | Except.ok (_, delays) =>
        let es := userInitEntries userName delays s.events now
        let ids := List.range' s.heap.length es.length
        let heap1 := s.heap ++ es
        let s1 := { s with heap := heap1,
                           users := upsert userName delays s.users,
                           userIdx := upsert userName ids s.userIdx }
        if flushOk then
          let kept := s.items.filter fun id => (heapGet heap1 id).user ≠ userName
          ({ s1 with items := sortByIds heap1 (kept ++ ids) }, none)
        else (s1, some StorageErr.flushErr)

/-- The scan loop of `Storage.notifications`: walk the global list from the
front; every entry firing before `now` emits its message and is advanced in
place by its event's period (through the shared pointer, i.e. a heap update);
the first entry not yet due stops the scan. -/
def notifAdvance (now : GoTime) (heap : List UserEvent) :
    List Nat → List UserEvent × List Msg
  | [] => (heap, [])
  | id :: rest =>
    let e := heapGet heap id
    if e.timestamp.ns < now.ns then
      let heap1 := heap.set id { e with timestamp := e.timestamp.add e.event.offset }
      let r := notifAdvance now heap1 rest
      (r.1, e.message :: r.2)
    else (heap, [])

/-- `Storage.notifications` (the CollectDue operation): scan and advance due
entries, then re-sort the global list by the updated firing instants. -/
def Storage.notifications (now : GoTime) (s : Storage) : Storage × List Msg :=
  let r := notifAdvance now s.heap s.items
  ({ s with heap := r.1, items := sortByIds r.1 s.items }, r.2)

/-- One iteration of the loop in `Storage.init`: build the user's entries,
store the profile and the index list (Go map assignment), and append the new
entries to the global list. -/
def initStep (now : GoTime) (acc : Storage) (u : String × List Int) : Storage :=
  let es := userInitEntries u.1 u.2 acc.events now
  let ids := List.range' acc.heap.length es.length
  { acc with heap := acc.heap ++ es,
             users := upsert u.1 u.2 acc.users,
             userIdx := upsert u.1 ids acc.userIdx,
             items := acc.items ++ ids }

/-- `Storage.init` as called by `New`: fold the loaded users into empty maps
and sort the accumulated global list by firing instant. -/
def Storage.initState (events : List Event) (limits : Limits)
    (users0 : List (String × List Int)) (now : GoTime) : Storage :=
  let s1 := users0.foldl (initStep now)
    { events := events, heap := [], items := [], limits := limits,
      users := [], userIdx := [] }
  { s1 with items := sortByIds s1.heap s1.items }

/-- Example limits: at most 10 users, at most 5 distinct delays per user,
delays allowed between 1 and 60 minutes. -/
def limitsEx : Limits := ⟨10, 5, 1, 60⟩

/-- A storage with one subscribed user "alice" (no delays yet) under
`limitsEx`. -/
def aliceStorage : Storage :=
  { events := [], heap := [], items := [], limits := limitsEx,
    users := [("alice", [])], userIdx := [("alice", [])] }

/-- A fixed reference instant for concrete evaluations. -/
def now0 : GoTime := ⟨utcLoc, 0⟩

/-- C1: the claim is the intent of `parseUserRow` (its parameters are named
`minD`/`maxD` and its messages read "too small"/"too large"), but
`Storage.Set` passes `limits.MaxDelay` as `minD` and `limits.MinDelay` as
`maxD` — the arguments are swapped.  Consequently the in-range value 30 of a
subscribed user under MinDelay=1, MaxDelay=60 is rejected with the validation
error "too small delay 30 < 60" instead of succeeding. -/
theorem c1_set_rejects_in_range_delay :
    limitsEx.MinDelay ≤ 30 ∧ (30 : Int) ≤ limitsEx.MaxDelay ∧
      (Storage.Set true now0 aliceStorage "alice" "30").2 =
        some (StorageErr.parseFail (ParseErr.tooSmall 30 60)) := by
  decide

/-- A storage already holding its maximum number of users (limit 1, one user
"a" present). -/
def fullStorage : Storage :=
  { events := [], heap := [], items := [], limits := ⟨1, 0, 0, 0⟩,
    users := [("a", [])], userIdx := [("a", [])] }

/-- C2 counterexample: the user-count check precedes the known-user check, so
subscribing an already-present user in a storage at its user limit fails with
the limit error, not with `ErrKnownUser`, refuting the claim that a present
user always gets `AlreadySubscribed` and that the limit error implies a new
user. -/
theorem c2_counterexample :
    (alookup "a" fullStorage.users).isSome = true ∧
      (Storage.Start true fullStorage "a").2 = some (StorageErr.tooManyUsers 1 1) ∧
      some (StorageErr.tooManyUsers 1 1) ≠ some StorageErr.knownUser := by
  decide

/-- C2 (amended): `Storage.Start` checks the user-count limit first — at or
above the limit it fails with the limit error regardless of whether the user
is present; below the limit a present user fails with `ErrKnownUser`; below
the limit a new user gets an empty profile and an empty per-user entry list,
the global schedule list and heap are untouched in every case, and the result
is an error exactly when the flush fails. -/
theorem c2_start_checks_limit_first (f : Bool) (s : Storage) (u : String) :
    (Storage.Start f s u).1.items = s.items ∧
    (Storage.Start f s u).1.heap = s.heap ∧
    (s.limits.Users ≤ (s.users.length : Int) →
      Storage.Start f s u =
        (s, some (StorageErr.tooManyUsers s.users.length s.limits.Users))) ∧
    ((s.users.length : Int) < s.limits.Users → (alookup u s.users).isSome →
      Storage.Start f s u = (s, some StorageErr.knownUser)) ∧
    ((s.users.length : Int) < s.limits.Users → alookup u s.users = none →
      (Storage.Start f s u).1.users = upsert u [] s.users ∧
      (Storage.Start f s u).1.userIdx = upsert u [] s.userIdx ∧
      (Storage.Start f s u).2 = if f then none else some StorageErr.flushErr) := by
  by_cases h1 : s.limits.Users ≤ (s.users.length : Int)
  · have he : Storage.Start f s u =
        (s, some (StorageErr.tooManyUsers s.users.length s.limits.Users)) := by
      unfold Storage.Start
      rw [if_pos h1]
    exact ⟨by rw [he], by rw [he], fun _ => he,
      fun h2 _ => absurd h1 (not_le.mpr h2), fun h2 _ => absurd h1 (not_le.mpr h2)⟩
  · by_cases h2 : (alookup u s.users).isSome
    · have he : Storage.Start f s u = (s, some StorageErr.knownUser) := by
        unfold Storage.Start
        rw [if_neg h1, if_pos h2]
      refine ⟨by rw [he], by rw [he], fun hl => absurd hl h1, fun _ _ => he,
        fun _ hn => ?_⟩
      rw [hn] at h2
      simp at h2
    · have he : Storage.Start f s u =
          ({ s with users := upsert u [] s.users, userIdx := upsert u [] s.userIdx },
           if f then none else some StorageErr.flushErr) := by
        unfold Storage.Start
        rw [if_neg h1, if_neg h2]
      exact ⟨by rw [he], by rw [he], fun hl => absurd hl h1,
        fun _ hs => absurd hs h2, fun _ _ => ⟨by rw [he], by rw [he], by rw [he]⟩⟩

/-- A storage with room for users but none subscribed. -/
def roomyStorage : Storage :=
  { events := [], heap := [], items := [], limits := ⟨5, 0, 0, 0⟩,
    users := [], userIdx := [] }

/-- Witness for C2 (amended): subscribing a fresh user "b" in an empty
storage below its limit creates the empty profile and index entry, leaves the
global list untouched, and succeeds. -/
theorem c2_witness :
    (Storage.Start true roomyStorage "b").1.users = upsert "b" [] roomyStorage.users ∧
      (Storage.Start true roomyStorage "b").1.userIdx =
        upsert "b" [] roomyStorage.userIdx ∧
      (Storage.Start true roomyStorage "b").2 =
        if true then none else some StorageErr.flushErr :=
  (c2_start_checks_limit_first true roomyStorage "b").2.2.2.2 (by decide) (by decide)

/-- A storage with no users at all and zero limits. -/
def emptyStorage : Storage :=
  { events := [], heap := [], items := [], limits := ⟨0, 0, 0, 0⟩,
    users := [], userIdx := [] }

/-- C8 counterexample: the empty-values check precedes the subscription
check, so `Configure(unknownUser, "")` fails with the validation error
`ErrSetUser`, not with `ErrUnknownUser`, refuting "fails with NotSubscribed
whenever the user is absent". -/
theorem c8_counterexample :
    alookup "bob" emptyStorage.users = none ∧
      (Storage.Set true now0 emptyStorage "bob" "").2 = some StorageErr.setUser ∧
      some StorageErr.setUser ≠ some StorageErr.unknownUser := by
  decide

/-- C8 (amended): `Storage.Set` rejects an empty `values` string with
`ErrSetUser` before looking at the user map (so even for unknown users), and
fails with `ErrUnknownUser` whenever `values` is non-empty and the user is
absent — in particular `Configure(unknownUser, "5")`. -/
theorem c8_set_error_precedence (f : Bool) (now : GoTime) (s : Storage)
    (u v : String) :
    (v = "" → Storage.Set f now s u v = (s, some StorageErr.setUser)) ∧
    (v ≠ "" → alookup u s.users = none →
      Storage.Set f now s u v = (s, some StorageErr.unknownUser)) := by
  constructor
  · intro hv
    unfold Storage.Set
    rw [if_pos hv]
  · intro hv hu
    unfold Storage.Set
    rw [if_neg hv, hu]

/-- Witness for C8 (amended): `Configure(subscribed alice, "")` fails with
`ErrSetUser`; `Configure(unknown bob, "5")` fails with `ErrUnknownUser`. -/
theorem c8_witness :
    Storage.Set true now0 aliceStorage "alice" "" =
        (aliceStorage, some StorageErr.setUser) ∧
      Storage.Set true now0 emptyStorage "bob" "5" =
        (emptyStorage, some StorageErr.unknownUser) :=
  ⟨(c8_set_error_precedence true now0 aliceStorage "alice" "").1 rfl,
   (c8_set_error_precedence true now0 emptyStorage "bob" "5").2 (by decide) (by decide)⟩

instance (h : List UserEvent) :
    IsTotal Nat (fun a b => (heapGet h a).timestamp.ns ≤ (heapGet h b).timestamp.ns) :=
  ⟨fun _ _ => Int.le_total _ _⟩

instance (h : List UserEvent) :
    IsTrans Nat (fun a b => (heapGet h a).timestamp.ns ≤ (heapGet h b).timestamp.ns) :=
  ⟨fun _ _ _ hab hbc => le_trans hab hbc⟩

/-- Sortedness of a list of entry indices by firing instant in a heap. -/
def itemsSorted (h : List UserEvent) (ids : List Nat) : Prop :=
  List.Sorted (fun a b => (heapGet h a).timestamp.ns ≤ (heapGet h b).timestamp.ns) ids

/-- All indices of a list point into the heap. -/
def validList (h : List UserEvent) (ids : List Nat) : Prop :=
  ∀ id ∈ ids, id < h.length

/-- The result of the Go sort is sorted by firing instant. -/
theorem sortByIds_sorted (h : List UserEvent) (ids : List Nat) :
    itemsSorted h (sortByIds h ids) :=
  List.sorted_insertionSort _ ids

/-- The Go sort permutes the list. -/
theorem sortByIds_perm (h : List UserEvent) (ids : List Nat) :
    (sortByIds h ids).Perm ids :=
  List.perm_insertionSort _ ids

/-- Dereferencing below the old length is unaffected by heap allocation. -/
theorem heapGet_append_of_lt {h : List UserEvent} {id : Nat} (es : List UserEvent)
    (hlt : id < h.length) : heapGet (h ++ es) id = heapGet h id := by
  simp [heapGet, List.getD_eq_getElem?_getD, List.getElem?_append, hlt]

/-- Sortedness survives allocating new entries at the end of the heap. -/
theorem itemsSorted_append {h : List UserEvent} {ids : List Nat}
    (es : List UserEvent) (hv : validList h ids) (hs : itemsSorted h ids) :
    itemsSorted (h ++ es) ids := by
  refine List.Pairwise.imp_of_mem ?_ hs
  intro a b ha hb hab
  rw [heapGet_append_of_lt es (hv a ha), heapGet_append_of_lt es (hv b hb)]
  exact hab

/-- `Storage.Start` never touches the global list or the heap. -/
theorem start_items_heap (f : Bool) (s : Storage) (u : String) :
    (Storage.Start f s u).1.items = s.items ∧ (Storage.Start f s u).1.heap = s.heap := by
  unfold Storage.Start
  split_ifs <;> simp

/-- C5: after every Storage mutation (`Start`, `Stop`, `Set` — in every
success and failure branch — and the initial build) and after every
`notifications` (CollectDue) call, the global schedule entry list is sorted
ascending by firing instant; `Start` preserves the already-sorted list, every
other path re-sorts explicitly. -/
theorem c5_global_list_sorted (f : Bool) (now : GoTime) (s : Storage)
    (u v : String) (events : List Event) (limits : Limits)
    (users0 : List (String × List Int))
    (hs : itemsSorted s.heap s.items) (hval : validList s.heap s.items) :
    itemsSorted (Storage.Start f s u).1.heap (Storage.Start f s u).1.items ∧
    itemsSorted (Storage.Stop f s u).1.heap (Storage.Stop f s u).1.items ∧
    itemsSorted (Storage.Set f now s u v).1.heap (Storage.Set f now s u v).1.items ∧
    itemsSorted (Storage.notifications now s).1.heap
      (Storage.notifications now s).1.items ∧
    itemsSorted (Storage.initState events limits users0 now).heap
      (Storage.initState events limits users0 now).items := by
  refine ⟨?_, ?_, ?_, ?_, ?_⟩
  · obtain ⟨hi, hh⟩ := start_items_heap f s u
    rw [hi, hh]
    exact hs
  · unfold Storage.Stop
    by_cases hu : (alookup u s.users).isSome
    · rw [if_pos hu]
      exact sortByIds_sorted _ _
    · rw [if_neg hu]
      exact hs
  · unfold Storage.Set
    by_cases hv0 : v = ""
    · rw [if_pos hv0]
      exact hs
    · rw [if_neg hv0]
      cases hl : alookup u s.users with
      | none =>
        simp only [hl]
        exact hs
      | some w =>
        simp only [hl]
        cases hp : parseUserRow [u, v] s.limits.MaxDelay s.limits.MinDelay
            s.limits.Delays with
        | error e =>
          simp only [hp]
          exact hs
        | ok pr =>
          obtain ⟨nm, delays⟩ := pr
          simp only [hp]
          cases f with
          | true => exact sortByIds_sorted _ _
          | false => exact itemsSorted_append _ hval hs
  · exact sortByIds_sorted _ _
  · exact sortByIds_sorted _ _

/-- Witness for C5 at a concrete storage with one user and an empty (hence
sorted) global list. -/
theorem c5_witness :
    itemsSorted aliceStorage.heap aliceStorage.items ∧
    validList aliceStorage.heap aliceStorage.items ∧
    (itemsSorted (Storage.Start true aliceStorage "b").1.heap
        (Storage.Start true aliceStorage "b").1.items ∧
      itemsSorted (Storage.Stop true aliceStorage "b").1.heap
        (Storage.Stop true aliceStorage "b").1.items ∧
      itemsSorted (Storage.Set true now0 aliceStorage "b" "5").1.heap
        (Storage.Set true now0 aliceStorage "b" "5").1.items ∧
      itemsSorted (Storage.notifications now0 aliceStorage).1.heap
        (Storage.notifications now0 aliceStorage).1.items ∧
      itemsSorted (Storage.initState [] limitsEx [("a", [1])] now0).heap
        (Storage.initState [] limitsEx [("a", [1])] now0).items) :=
  ⟨by simp [itemsSorted, aliceStorage], by simp [validList, aliceStorage],
   c5_global_list_sorted true now0 aliceStorage "b" "5" [] limitsEx [("a", [1])]
     (by simp [itemsSorted, aliceStorage]) (by simp [validList, aliceStorage])⟩

/-- Writing entry `i` leaves every other pointer dereference unchanged. -/
theorem heapGet_set_ne {h : List UserEvent} {i j : Nat} (hne : i ≠ j)
    (e : UserEvent) : heapGet (h.set i e) j = heapGet h j := by
  simp [heapGet, List.getD_eq_getElem?_getD, List.getElem?_set_ne hne]

/-- Writing entry `i` inside the heap makes dereferencing `i` return it. -/
theorem heapGet_set_self {h : List UserEvent} {i : Nat} (hi : i < h.length)
    (e : UserEvent) : heapGet (h.set i e) i = e := by
  simp [heapGet, List.getD_eq_getElem?_getD, List.getElem?_set_self hi]

/-- Sortedness only depends on the dereferences of the listed entries. -/
theorem itemsSorted_congr {h h' : List UserEvent} {ids : List Nat}
    (hagree : ∀ id ∈ ids, heapGet h' id = heapGet h id) :
    itemsSorted h ids → itemsSorted h' ids := by
  refine List.Pairwise.imp_of_mem ?_
  intro a b ha hb hab
  rw [hagree a ha, hagree b hb]
  exact hab

/-- The scan loop never touches entries outside the listed indices. -/
theorem notifAdvance_untouched (now : GoTime) :
    ∀ (ids : List Nat) (h : List UserEvent) (j : Nat), j ∉ ids →
      heapGet (notifAdvance now h ids).1 j = heapGet h j := by
  intro ids
  induction ids with
  | nil => intro h j _; rfl
  | cons i rest ih =>
    intro h j hj
    rw [List.mem_cons, not_or] at hj
    unfold notifAdvance
    by_cases hdue : (heapGet h i).timestamp.ns < now.ns
    · rw [if_pos hdue]
      rw [ih _ j hj.2, heapGet_set_ne (fun he => hj.1 he.symm)]
    · rw [if_neg hdue]

/-- After one scan, every listed entry fires at or after `now`: due entries
were advanced by one period, which the lag bound puts at or past `now`; the
first non-due entry stops the scan and sortedness covers the rest. -/
theorem notifAdvance_all_ge (now : GoTime) :
    ∀ (ids : List Nat) (h : List UserEvent), ids.Nodup →
      itemsSorted h ids → validList h ids →
      (∀ id ∈ ids, (heapGet h id).timestamp.ns < now.ns →
        now.ns ≤ (heapGet h id).timestamp.ns + (heapGet h id).event.offset) →
      ∀ id ∈ ids, now.ns ≤ (heapGet (notifAdvance now h ids).1 id).timestamp.ns := by
  intro ids
  induction ids with
  | nil => intro h _ _ _ _ id hid; exact absurd hid (List.not_mem_nil id)
  | cons i rest ih =>
    intro h hnd hs hval hlag id hid
    have hnd' := List.nodup_cons.mp hnd
    have hs' := List.sorted_cons.mp hs
    by_cases hdue : (heapGet h i).timestamp.ns < now.ns
    · have hi : i < h.length := hval i (List.mem_cons_self i rest)
      set e := heapGet h i with he
      set h1 := h.set i { e with timestamp := e.timestamp.add e.event.offset } with hh1
      have hstep : (notifAdvance now h (i :: rest)).1 = (notifAdvance now h1 rest).1 := by
        rw [notifAdvance, if_pos hdue]
      have hagree : ∀ jd ∈ rest, heapGet h1 jd = heapGet h jd := by
        intro jd hjd
        refine heapGet_set_ne (fun hij => hnd'.1 ?_) _
        rw [hij]
        exact hjd
      rw [hstep]
      rcases List.mem_cons.mp hid with hidi | hidr
      · subst hidi
        rw [notifAdvance_untouched now rest h1 id hnd'.1]
        rw [hh1, heapGet_set_self hi]
        exact le_trans (hlag id (List.mem_cons_self id rest) hdue) (by simp [GoTime.add, he])
      · refine ih h1 hnd'.2 ?_ ?_ ?_ id hidr
        · exact itemsSorted_congr hagree hs'.2
        · intro jd hjd
          rw [hh1, List.length_set]
          exact hval jd (List.mem_cons_of_mem i hjd)
        · intro jd hjd
          rw [hagree jd hjd]
          exact hlag jd (List.mem_cons_of_mem i hjd)
    · have hstep : (notifAdvance now h (i :: rest)).1 = h := by
        rw [notifAdvance, if_neg hdue]
      rw [hstep]
      rcases List.mem_cons.mp hid with hidi | hidr
      · subst hidi; exact not_lt.mp hdue
      · exact le_trans (not_lt.mp hdue) (hs'.1 id hidr)

/-- A scan over entries that all fire at or after `now` emits no messages. -/
theorem notifAdvance_no_due (now : GoTime) (h : List UserEvent) (ids : List Nat)
    (hge : ∀ id ∈ ids, now.ns ≤ (heapGet h id).timestamp.ns) :
    (notifAdvance now h ids).2 = [] := by
  cases ids with
  | nil => rfl
  | cons i rest =>
    rw [notifAdvance, if_neg (not_lt.mpr (hge i (List.mem_cons_self i rest)))]

instance (h : List UserEvent) (ids : List Nat) : Decidable (itemsSorted h ids) :=
  inferInstanceAs (Decidable (List.Sorted
    (fun a b => (heapGet h a).timestamp.ns ≤ (heapGet h b).timestamp.ns) ids))

instance (h : List UserEvent) (ids : List Nat) : Decidable (validList h ids) :=
  inferInstanceAs (Decidable (∀ id ∈ ids, id < h.length))

/-- An event with a 10 ns recurrence period anchored at instant 0. -/
def lagEvent : Event := ⟨"e", "http://x", "m", 10, ⟨utcLoc, 0⟩⟩

/-- An entry of user "u" for `lagEvent` firing at instant 0 — more than one
period behind the reference instant 25. -/
def lagEntry : UserEvent := ⟨"u", lagEvent, 0, 0, ⟨utcLoc, 0⟩⟩

/-- A storage whose single schedule entry lags `now = 25` by several periods. -/
def lagStorage : Storage :=
  { events := [lagEvent], heap := [lagEntry], items := [0],
    limits := ⟨10, 0, 0, 0⟩, users := [("u", [0])], userIdx := [("u", [0])] }

/-- The reference instant 25 used by the CollectDue counterexample. -/
def now25 : GoTime := ⟨utcLoc, 25⟩

/-- C4 counterexample: an entry firing at instant 0 with period 10 under
`now = 25` is advanced only to instant 10 by the first `notifications` call,
so a second call with the same `now` and no intervening state change emits it
again — the second result is not empty, refuting the claim. -/
theorem c4_counterexample :
    (Storage.notifications now25 (Storage.notifications now25 lagStorage).1).2 ≠ [] := by
  decide

/-- C4 (amended): a second `notifications` (CollectDue) call with the same
`now` and no intervening state change returns an empty list provided the
global list is duplicate-free, valid, sorted, and every due entry lags `now`
by less than one recurrence period (old instant + period ≥ now); an entry
further behind is advanced by only one period per call and is emitted again. -/
theorem c4_second_collect_empty (now : GoTime) (s : Storage)
    (hnd : s.items.Nodup) (hs : itemsSorted s.heap s.items)
    (hval : validList s.heap s.items)
    (hlag : ∀ id ∈ s.items, (heapGet s.heap id).timestamp.ns < now.ns →
      now.ns ≤ (heapGet s.heap id).timestamp.ns + (heapGet s.heap id).event.offset) :
    (Storage.notifications now (Storage.notifications now s).1).2 = [] := by
  have hall := notifAdvance_all_ge now s.items s.heap hnd hs hval hlag
  apply notifAdvance_no_due
  intro id hid
  have hmem : id ∈ s.items := by
    have hperm := sortByIds_perm (notifAdvance now s.heap s.items).1 s.items
    exact hperm.mem_iff.mp hid
  exact hall id hmem

/-- An entry firing at instant 20 with period 10: due at `now = 25` but less
than one period behind it. -/
def freshEntry : UserEvent := ⟨"u", lagEvent, 0, 0, ⟨utcLoc, 20⟩⟩

/-- A storage whose single due entry lags `now = 25` by less than a period. -/
def freshStorage : Storage :=
  { events := [lagEvent], heap := [freshEntry], items := [0],
    limits := ⟨10, 0, 0, 0⟩, users := [("u", [0])], userIdx := [("u", [0])] }

/-- Witness for C4 (amended): the entry at instant 20 (period 10) is emitted
and advanced to 30 by the first call at `now = 25`; the second call returns
nothing. -/
theorem c4_witness :
    freshStorage.items.Nodup ∧
    itemsSorted freshStorage.heap freshStorage.items ∧
    validList freshStorage.heap freshStorage.items ∧
    (∀ id ∈ freshStorage.items,
      (heapGet freshStorage.heap id).timestamp.ns < now25.ns →
        now25.ns ≤ (heapGet freshStorage.heap id).timestamp.ns +
          (heapGet freshStorage.heap id).event.offset) ∧
    (Storage.notifications now25 (Storage.notifications now25 freshStorage).1).2 = [] :=
  ⟨by decide, by decide, by decide, by decide,
   c4_second_collect_empty now25 freshStorage (by decide) (by decide) (by decide)
     (by decide)⟩

/-- The per-user entry index of `n` (the Go `s.userIdx[n]`, empty if absent). -/
def idxOfL (userIdx : List (String × List Nat)) (n : String) : List Nat :=
  (alookup n userIdx).getD []

/-- The union of the per-user index entries of all registered users. -/
def unionIdxL (users : List (String × List Int))
    (userIdx : List (String × List Nat)) : List Nat :=
  (users.map fun p => idxOfL userIdx p.1).flatten

/-- The user map has no duplicate keys (it models a Go map). -/
def keysNodup (s : Storage) : Prop := (s.users.map Prod.fst).Nodup

/-- The user map and the per-user index are defined on the same users. -/
def sameKeys (s : Storage) : Prop :=
  ∀ n, (alookup n s.users).isSome = (alookup n s.userIdx).isSome

/-- Every per-user index entry points into the heap. -/
def idxValid (s : Storage) : Prop := ∀ n, validList s.heap (idxOfL s.userIdx n)

/-- Every entry indexed under user `n` carries `n` as its user field. -/
def idxTags (s : Storage) : Prop :=
  ∀ n, ∀ id ∈ idxOfL s.userIdx n, (heapGet s.heap id).user = n

/-- The C6 consistency property proper: the global schedule list holds
exactly the union of the per-user index entries of the registered users. -/
def consistent (s : Storage) : Prop :=
  s.items.Perm (unionIdxL s.users s.userIdx)

/-- Mutual consistency of the user map, the per-user index and the global
list: matching keys, no duplicate users, valid and correctly-tagged index
entries, and a global list that is exactly their union. -/
def mutualWf (s : Storage) : Prop :=
  keysNodup s ∧ sameKeys s ∧ idxValid s ∧ validList s.heap s.items ∧
    idxTags s ∧ consistent s

/-- A key is absent exactly when it is not among the mapped keys. -/
theorem alookup_eq_none {α : Type} (k : String) :
    ∀ l : List (String × α), alookup k l = none ↔ k ∉ l.map Prod.fst := by
  intro l
  induction l with
  | nil => simp [alookup]
  | cons p t ih =>
    by_cases hp : p.1 = k
    · simp [alookup, hp]
    · have hk : k ≠ p.1 := fun he => hp he.symm
      simp [alookup, hp, ih, hk]

/-- Looking up the just-assigned key returns the new value. -/
theorem alookup_upsert_self {α : Type} (k : String) (v : α) :
    ∀ l : List (String × α), alookup k (upsert k v l) = some v := by
  intro l
  induction l with
  | nil => simp [alookup, upsert]
  | cons p t ih =>
    by_cases hp : p.1 = k
    · simp [alookup, upsert, hp]
    · simp [alookup, upsert, hp, ih]

/-- Assignment does not disturb other keys. -/
theorem alookup_upsert_ne {α : Type} {k n : String} (h : n ≠ k) (v : α) :
    ∀ l : List (String × α), alookup n (upsert k v l) = alookup n l := by
  intro l
  have hkn : ¬(k = n) := fun he => h he.symm
  induction l with
  | nil => simp [alookup, upsert, hkn]
  | cons p t ih =>
    by_cases hp : p.1 = k
    · simp [alookup, upsert, hp, hkn]
    · by_cases hn : p.1 = n
      · simp [alookup, upsert, hp, hn, h]
      · simp [alookup, upsert, hp, hn, ih]

/-- Assigning an absent key appends the binding at the end. -/
theorem upsert_of_absent {α : Type} {k : String} (v : α) :
    ∀ {l : List (String × α)}, alookup k l = none → upsert k v l = l ++ [(k, v)] := by
  intro l
  induction l with
  | nil => intro _; rfl
  | cons p t ih =>
    intro hnone
    by_cases hp : p.1 = k
    · rw [alookup, if_pos hp] at hnone
      exact absurd hnone (by simp)
    · rw [alookup, if_neg hp] at hnone
      rw [upsert, if_neg hp, ih hnone]
      rfl

/-- Assigning a present key leaves the key sequence unchanged. -/
theorem map_fst_upsert_of_present {α : Type} {k : String} (v : α) :
    ∀ {l : List (String × α)}, (alookup k l).isSome →
      (upsert k v l).map Prod.fst = l.map Prod.fst := by
  intro l
  induction l with
  | nil => intro hs; simp [alookup] at hs
  | cons p t ih =>
    intro hs
    by_cases hp : p.1 = k
    · rw [upsert, if_pos hp]
      simp [hp]
    · rw [alookup, if_neg hp] at hs
      rw [upsert, if_neg hp]
      simp [ih hs]

/-- Deleting a key makes its lookup fail. -/
theorem alookup_filter_self {α : Type} (k : String) :
    ∀ l : List (String × α), alookup k (l.filter fun p => p.1 ≠ k) = none := by
  intro l
  induction l with
  | nil => rfl
  | cons p t ih =>
    by_cases hp : p.1 = k
    · simpa [List.filter, hp] using ih
    · simpa [List.filter, hp, alookup] using ih

/-- Deleting a key does not disturb other keys. -/
theorem alookup_filter_ne {α : Type} {k n : String} (h : n ≠ k) :
    ∀ l : List (String × α), alookup n (l.filter fun p => p.1 ≠ k) = alookup n l := by
  intro l
  have hkn : ¬(k = n) := fun he => h he.symm
  induction l with
  | nil => rfl
  | cons p t ih =>
    by_cases hp : p.1 = k
    · simpa [List.filter, hp, alookup, hkn] using ih
    · by_cases hn : p.1 = n
      · simp [List.filter, hp, alookup, hn, h]
      · simpa [List.filter, hp, alookup, hn] using ih

/-- Dereferencing above the old length after allocation reads the new block. -/
theorem heapGet_append_right {h es : List UserEvent} {id : Nat}
    (h1 : h.length ≤ id) : heapGet (h ++ es) id = heapGet es (id - h.length) := by
  simp [heapGet, List.getD_eq_getElem?_getD, List.getElem?_append_right h1]

/-- A valid dereference yields a member of the heap. -/
theorem heapGet_mem {l : List UserEvent} {i : Nat} (h : i < l.length) :
    heapGet l i ∈ l := by
  rw [heapGet, List.getD_eq_getElem?_getD, List.getElem?_eq_getElem h]
  exact List.getElem_mem h

/-- The Go sort permutes the entry list. -/
theorem sortByTs_perm (l : List UserEvent) : (sortByTs l).Perm l :=
  List.perm_insertionSort _ l

/-- Every entry built by `user.init` carries that user's name. -/
theorem userInitEntries_user {name : String} {delays : List Int}
    {events : List Event} {now : GoTime} :
    ∀ e ∈ userInitEntries name delays events now, e.user = name := by
  intro e he
  rw [userInitEntries] at he
  have he2 := (sortByTs_perm _).mem_iff.mp he
  simp only [List.mem_flatten, List.mem_map] at he2
  obtain ⟨l, ⟨ev, _, hl⟩, hel⟩ := he2
  subst hl
  simp only [List.mem_map] at hel
  obtain ⟨d, _, hd⟩ := hel
  subst hd
  rfl

/-- Replacing the segment of one key (previously contributing nothing) by a
new list permutes the joined union accordingly. -/
theorem join_set_perm {u : String} {l : List Nat} :
    ∀ (keys : List String) (f g : String → List Nat), keys.Nodup → u ∈ keys →
      (∀ k ∈ keys, k ≠ u → f k = g k) → f u = [] → g u = l →
      ((keys.map f).flatten ++ l).Perm ((keys.map g).flatten) := by
  intro keys
  induction keys with
  | nil => intro f g _ hmem; exact absurd hmem (List.not_mem_nil u)
  | cons q rest ih =>
    intro f g hnd hmem hfg hfu hgu
    have hnd' := List.nodup_cons.mp hnd
    by_cases hq : q = u
    · subst hq
      have hrest : rest.map f = rest.map g := by
        refine List.map_congr_left ?_
        intro k hk
        exact hfg k (List.mem_cons_of_mem q hk) (fun he => hnd'.1 (he ▸ hk))
      rw [List.map_cons, List.map_cons, List.flatten_cons, List.flatten_cons,
        hfu, hgu, hrest, List.nil_append]
      exact List.perm_append_comm
    · have hmem' : u ∈ rest := by
        rcases List.mem_cons.mp hmem with he | hr
        · exact absurd he.symm hq
        · exact hr
      have hq' : f q = g q := hfg q (List.mem_cons_self q rest) hq
      rw [List.map_cons, List.map_cons, List.flatten_cons, List.flatten_cons,
        hq', List.append_assoc]
      exact List.Perm.append_left (g q)
        (ih f g hnd'.2 hmem' (fun k hk => hfg k (List.mem_cons_of_mem q hk)) hfu hgu)

/-- `Storage.Start` preserves mutual consistency: the new user gets an empty
profile and an empty index list, and the global list is untouched. -/
theorem mutualWf_start (f : Bool) (s : Storage) (u : String) (h : mutualWf s) :
    mutualWf (Storage.Start f s u).1 := by
  obtain ⟨hnd, hsk, hiv, hvi, htg, hc⟩ := h
  unfold Storage.Start
  by_cases h1 : s.limits.Users ≤ (s.users.length : Int)
  · rw [if_pos h1]
    exact ⟨hnd, hsk, hiv, hvi, htg, hc⟩
  · rw [if_neg h1]
    by_cases h2 : (alookup u s.users).isSome
    · rw [if_pos h2]
      exact ⟨hnd, hsk, hiv, hvi, htg, hc⟩
    · rw [if_neg h2]
      have hu : alookup u s.users = none := Option.not_isSome_iff_eq_none.mp h2
      have hui : alookup u s.userIdx = none := by
        have hk := hsk u
        rw [hu] at hk
        exact Option.not_isSome_iff_eq_none.mp (fun hs2 => by rw [← hk] at hs2; simp at hs2)
      have hnotmem : u ∉ s.users.map Prod.fst := (alookup_eq_none u s.users).mp hu
      dsimp only
      refine ⟨?_, ?_, ?_, hvi, ?_, ?_⟩
      · show ((upsert u [] s.users).map Prod.fst).Nodup
        rw [upsert_of_absent _ hu, List.map_append, List.nodup_append]
        refine ⟨hnd, by simp, ?_⟩
        intro a ha hb
        simp only [List.map_singleton, List.mem_singleton] at hb
        subst hb
        exact hnotmem ha
      · intro n
        by_cases hn : n = u
        · subst hn
          rw [alookup_upsert_self, alookup_upsert_self]
          rfl
        · rw [alookup_upsert_ne hn, alookup_upsert_ne hn]
          exact hsk n
      · intro n
        by_cases hn : n = u
        · subst hn
          rw [idxOfL, alookup_upsert_self]
          intro id hid
          simp at hid
        · rw [idxOfL, alookup_upsert_ne hn]
          exact hiv n
      · intro n
        by_cases hn : n = u
        · subst hn
          rw [idxOfL, alookup_upsert_self]
          intro id hid
          simp at hid
        · rw [idxOfL, alookup_upsert_ne hn]
          exact htg n
      · show List.Perm s.items (unionIdxL (upsert u [] s.users) (upsert u [] s.userIdx))
        rw [unionIdxL, upsert_of_absent _ hu, List.map_append, List.flatten_append]
        have hseg : List.map (fun p => idxOfL (upsert u [] s.userIdx) p.1) s.users =
            List.map (fun p => idxOfL s.userIdx p.1) s.users := by
          refine List.map_congr_left ?_
          intro p hp
          have hne : p.1 ≠ u := fun he => hnotmem (he ▸ List.mem_map_of_mem Prod.fst hp)
          rw [idxOfL, idxOfL, alookup_upsert_ne hne]
        have hu2 : idxOfL (upsert u [] s.userIdx) u = [] := by
          rw [idxOfL, alookup_upsert_self]
          rfl
        rw [hseg]
        simp only [List.map_cons, List.map_nil, List.flatten_cons, List.flatten_nil,
          hu2, List.append_nil]
        exact hc

/-- Keys whose segment was emptied can be dropped from the joined union. -/
theorem flatten_erase_key {β : Type} {u : String} (f : String × β → List Nat) :
    ∀ users : List (String × β),
      (users.map fun p => if p.1 = u then [] else f p).flatten =
        ((users.filter fun p => p.1 ≠ u).map f).flatten := by
  intro users
  induction users with
  | nil => rfl
  | cons q t ih =>
    by_cases hq : q.1 = u
    · simpa [hq] using ih
    · simpa [hq] using congrArg (f q ++ ·) ih

/-- `Storage.Stop` preserves mutual consistency: the profile, the index list
and all of the user's global entries are removed together. -/
theorem mutualWf_stop (f : Bool) (s : Storage) (u : String) (h : mutualWf s) :
    mutualWf (Storage.Stop f s u).1 := by
  obtain ⟨hnd, hsk, hiv, hvi, htg, hc⟩ := h
  unfold Storage.Stop
  by_cases h2 : (alookup u s.users).isSome
  · rw [if_pos h2]
    dsimp only
    refine ⟨?_, ?_, ?_, ?_, ?_, ?_⟩
    · exact List.Nodup.sublist
        (List.Sublist.map Prod.fst (List.filter_sublist s.users)) hnd
    · intro n
      by_cases hn : n = u
      · subst hn
        rw [alookup_filter_self, alookup_filter_self]
        rfl
      · rw [alookup_filter_ne hn, alookup_filter_ne hn]
        exact hsk n
    · intro n
      by_cases hn : n = u
      · subst hn
        rw [idxOfL, alookup_filter_self]
        intro id hid
        simp at hid
      · rw [idxOfL, alookup_filter_ne hn]
        exact hiv n
    · intro id hid
      have hmem := (sortByIds_perm _ _).mem_iff.mp hid
      exact hvi id (List.mem_filter.mp hmem).1
    · intro n
      by_cases hn : n = u
      · subst hn
        rw [idxOfL, alookup_filter_self]
        intro id hid
        simp at hid
      · rw [idxOfL, alookup_filter_ne hn]
        exact htg n
    · refine ((sortByIds_perm _ _).trans (hc.filter _)).trans ?_
      have hstep1 :
          (unionIdxL s.users s.userIdx).filter
              (fun id => decide ((heapGet s.heap id).user ≠ u)) =
            (s.users.map fun p => (idxOfL s.userIdx p.1).filter
              (fun id => decide ((heapGet s.heap id).user ≠ u))).flatten := by
        rw [unionIdxL, List.filter_flatten, List.map_map]
        rfl
      have hstep2 :
          (s.users.map fun p => (idxOfL s.userIdx p.1).filter
              (fun id => decide ((heapGet s.heap id).user ≠ u))).flatten =
            (s.users.map fun p =>
              if p.1 = u then [] else idxOfL s.userIdx p.1).flatten := by
        refine congrArg List.flatten (List.map_congr_left ?_)
        intro p hp
        by_cases hpu : p.1 = u
        · rw [if_pos hpu]
          refine List.filter_eq_nil_iff.mpr ?_
          intro id hid
          simp [htg p.1 id hid, hpu]
        · rw [if_neg hpu]
          refine List.filter_eq_self.mpr ?_
          intro id hid
          simp [htg p.1 id hid, hpu]
      have hstep4 :
          ((s.users.filter fun p => p.1 ≠ u).map fun p =>
              idxOfL s.userIdx p.1).flatten =
            unionIdxL (s.users.filter fun p => p.1 ≠ u)
              (s.userIdx.filter fun p => p.1 ≠ u) := by
        rw [unionIdxL]
        refine congrArg List.flatten (List.map_congr_left ?_)
        intro p hp
        have hpu : p.1 ≠ u := by
          have := (List.mem_filter.mp hp).2
          simpa using this
        rw [idxOfL, idxOfL, alookup_filter_ne hpu]
      rw [hstep1, hstep2, flatten_erase_key, hstep4]
  · rw [if_neg h2]
    exact ⟨hnd, hsk, hiv, hvi, htg, hc⟩

/-- The scan preserves the heap's length. -/
theorem notifAdvance_length (now : GoTime) :
    ∀ (ids : List Nat) (h : List UserEvent),
      (notifAdvance now h ids).1.length = h.length := by
  intro ids
  induction ids with
  | nil => intro h; rfl
  | cons i rest ih =>
    intro h
    unfold notifAdvance
    by_cases hdue : (heapGet h i).timestamp.ns < now.ns
    · rw [if_pos hdue]
      dsimp only
      rw [ih, List.length_set]
    · rw [if_neg hdue]

/-- The scan only moves timestamps: every entry's user field is unchanged. -/
theorem notifAdvance_user (now : GoTime) :
    ∀ (ids : List Nat) (h : List UserEvent) (j : Nat),
      (heapGet (notifAdvance now h ids).1 j).user = (heapGet h j).user := by
  intro ids
  induction ids with
  | nil => intro h j; rfl
  | cons i rest ih =>
    intro h j
    unfold notifAdvance
    by_cases hdue : (heapGet h i).timestamp.ns < now.ns
    · rw [if_pos hdue]
      dsimp only
      rw [ih]
      by_cases hij : i = j
      · subst hij
        by_cases hlt : i < h.length
        · rw [heapGet_set_self hlt]
        · rw [List.set_eq_of_length_le (le_of_not_lt hlt)]
      · rw [heapGet_set_ne hij]
    · rw [if_neg hdue]

/-- `Storage.notifications` preserves mutual consistency: it only advances
timestamps through the shared pointers and re-sorts the same index list. -/
theorem mutualWf_notifications (now : GoTime) (s : Storage) (h : mutualWf s) :
    mutualWf (Storage.notifications now s).1 := by
  obtain ⟨hnd, hsk, hiv, hvi, htg, hc⟩ := h
  unfold Storage.notifications
  dsimp only
  have hlen : (notifAdvance now s.heap s.items).1.length = s.heap.length :=
    notifAdvance_length now s.items s.heap
  refine ⟨hnd, hsk, ?_, ?_, ?_, ?_⟩
  · intro n id hid
    rw [hlen]
    exact hiv n id hid
  · intro id hid
    rw [hlen]
    exact hvi id ((sortByIds_perm _ _).mem_iff.mp hid)
  · intro n id hid
    rw [notifAdvance_user now s.items s.heap id]
    exact htg n id hid
  · exact (sortByIds_perm _ _).trans hc

/-- A successful lookup means the key is registered. -/
theorem mem_of_alookup_isSome {α : Type} {k : String} {l : List (String × α)}
    (h : (alookup k l).isSome) : k ∈ l.map Prod.fst := by
  by_contra hn
  rw [(alookup_eq_none k l).mpr hn] at h
  simp at h

/-- `Storage.Set` with a successful flush preserves mutual consistency: the
profile, the index list and the global list are all moved to the new entry
set together. -/
theorem mutualWf_set (now : GoTime) (s : Storage) (u v : String)
    (h : mutualWf s) : mutualWf (Storage.Set true now s u v).1 := by
  obtain ⟨hnd, hsk, hiv, hvi, htg, hc⟩ := h
  unfold Storage.Set
  by_cases hv0 : v = ""
  · rw [if_pos hv0]
    exact ⟨hnd, hsk, hiv, hvi, htg, hc⟩
  · rw [if_neg hv0]
    cases hl : alookup u s.users with
    | none =>
      simp only [hl]
      exact ⟨hnd, hsk, hiv, hvi, htg, hc⟩
    | some w =>
      simp only [hl]
      cases hp : parseUserRow [u, v] s.limits.MaxDelay s.limits.MinDelay
          s.limits.Delays with
      | error e =>
        simp only [hp]
        exact ⟨hnd, hsk, hiv, hvi, htg, hc⟩
      | ok pr =>
        obtain ⟨nm, delays⟩ := pr
        simp only [hp, if_true]
        have husome : (alookup u s.users).isSome := by rw [hl]; rfl
        have humem : u ∈ s.users.map Prod.fst := mem_of_alookup_isSome husome
        have hlen1 : (s.heap ++ userInitEntries u delays s.events now).length =
            s.heap.length + (userInitEntries u delays s.events now).length :=
          List.length_append _ _
        refine ⟨?_, ?_, ?_, ?_, ?_, ?_⟩
        · show ((upsert u delays s.users).map Prod.fst).Nodup
          rw [map_fst_upsert_of_present _ husome]
          exact hnd
        · intro n
          by_cases hn : n = u
          · subst hn
            rw [alookup_upsert_self, alookup_upsert_self]
            rfl
          · rw [alookup_upsert_ne hn, alookup_upsert_ne hn]
            exact hsk n
        · intro n
          by_cases hn : n = u
          · subst hn
            rw [idxOfL, alookup_upsert_self]
            intro id hid
            rw [Option.getD_some, List.mem_range'_1] at hid
            rw [hlen1]
            exact hid.2
          · rw [idxOfL, alookup_upsert_ne hn]
            intro id hid
            have := hiv n id hid
            rw [hlen1]
            omega
        · intro id hid
          have hmem := (sortByIds_perm _ _).mem_iff.mp hid
          rcases List.mem_append.mp hmem with hin | hin
          · have := hvi id (List.mem_filter.mp hin).1
            rw [hlen1]
            omega
          · rw [List.mem_range'_1] at hin
            rw [hlen1]
            exact hin.2
        · intro n
          by_cases hn : n = u
          · subst hn
            rw [idxOfL, alookup_upsert_self]
            intro id hid
            rw [Option.getD_some, List.mem_range'_1] at hid
            rw [heapGet_append_right hid.1]
            refine userInitEntries_user _ (heapGet_mem ?_)
            omega
          · rw [idxOfL, alookup_upsert_ne hn]
            intro id hid
            rw [heapGet_append_of_lt _ (hiv n id hid)]
            exact htg n id hid
        · -- consistency of the spliced list
          refine ((sortByIds_perm _ _).trans ?_)
          have hkept : (s.items.filter fun id =>
              (heapGet (s.heap ++ userInitEntries u delays s.events now) id).user ≠ u) =
                s.items.filter fun id => (heapGet s.heap id).user ≠ u := by
            refine List.filter_congr ?_
            intro id hid
            rw [heapGet_append_of_lt _ (hvi id hid)]
          rw [hkept]
          have hfilter : (s.items.filter fun id => (heapGet s.heap id).user ≠ u).Perm
              ((unionIdxL s.users s.userIdx).filter
                fun id => (heapGet s.heap id).user ≠ u) :=
            hc.filter _
          have hstep1 :
              (unionIdxL s.users s.userIdx).filter
                  (fun id => decide ((heapGet s.heap id).user ≠ u)) =
                (s.users.map fun p => (idxOfL s.userIdx p.1).filter
                  (fun id => decide ((heapGet s.heap id).user ≠ u))).flatten := by
            rw [unionIdxL, List.filter_flatten, List.map_map]
            rfl
          have hstep2 :
              (s.users.map fun p => (idxOfL s.userIdx p.1).filter
                  (fun id => decide ((heapGet s.heap id).user ≠ u))).flatten =
                (s.users.map fun p =>
                  if p.1 = u then [] else idxOfL s.userIdx p.1).flatten := by
            refine congrArg List.flatten (List.map_congr_left ?_)
            intro p hp
            by_cases hpu : p.1 = u
            · rw [if_pos hpu]
              refine List.filter_eq_nil_iff.mpr ?_
              intro id hid
              simp [htg p.1 id hid, hpu]
            · rw [if_neg hpu]
              refine List.filter_eq_self.mpr ?_
              intro id hid
              simp [htg p.1 id hid, hpu]
          have hmaps : (s.users.map fun p =>
              if p.1 = u then [] else idxOfL s.userIdx p.1) =
                (s.users.map Prod.fst).map
                  (fun k => if k = u then [] else idxOfL s.userIdx k) := by
            rw [List.map_map]
            rfl
          have hmaps2 : ∀ idx2 : List (String × List Nat),
              ((upsert u delays s.users).map fun p => idxOfL idx2 p.1) =
                (s.users.map Prod.fst).map (fun k => idxOfL idx2 k) := by
            intro idx2
            have h1 : ((upsert u delays s.users).map fun p => idxOfL idx2 p.1) =
                ((upsert u delays s.users).map Prod.fst).map
                  (fun k => idxOfL idx2 k) := by
              rw [List.map_map]
              rfl
            rw [h1, map_fst_upsert_of_present delays husome]
          have hperm := join_set_perm (u := u)
            (l := List.range' s.heap.length (userInitEntries u delays s.events now).length)
            (s.users.map Prod.fst)
            (fun k => if k = u then [] else idxOfL s.userIdx k)
            (fun k => idxOfL (upsert u
              (List.range' s.heap.length (userInitEntries u delays s.events now).length)
              s.userIdx) k)
            hnd humem
            (fun k _ hk => by
              simp only [if_neg hk, idxOfL, alookup_upsert_ne hk])
            (by simp)
            (by simp only [idxOfL, alookup_upsert_self, Option.getD_some])
          have hchain :
              (((unionIdxL s.users s.userIdx).filter
                  fun id => decide ((heapGet s.heap id).user ≠ u)) ++
                List.range' s.heap.length
                  (userInitEntries u delays s.events now).length).Perm
                (unionIdxL (upsert u delays s.users)
                  (upsert u (List.range' s.heap.length
                    (userInitEntries u delays s.events now).length) s.userIdx)) := by
            rw [hstep1, hstep2, hmaps, unionIdxL, hmaps2]
            exact hperm
          exact (List.Perm.append_right _ hfilter).trans hchain

/-- One `Storage.init` iteration preserves mutual consistency when the user's
name is fresh: the new entries are appended to the heap, indexed under the
user, and appended to the global list. -/
theorem mutualWf_initStep (now : GoTime) (acc : Storage) (q : String × List Int)
    (h : mutualWf acc) (hfresh : alookup q.1 acc.users = none) :
    mutualWf (initStep now acc q) := by
  obtain ⟨hnd, hsk, hiv, hvi, htg, hc⟩ := h
  have hnotmem : q.1 ∉ acc.users.map Prod.fst := (alookup_eq_none _ _).mp hfresh
  unfold initStep
  dsimp only
  have hlen1 : (acc.heap ++ userInitEntries q.1 q.2 acc.events now).length =
      acc.heap.length + (userInitEntries q.1 q.2 acc.events now).length :=
    List.length_append _ _
  refine ⟨?_, ?_, ?_, ?_, ?_, ?_⟩
  · show ((upsert q.1 q.2 acc.users).map Prod.fst).Nodup
    rw [upsert_of_absent _ hfresh, List.map_append, List.nodup_append]
    refine ⟨hnd, by simp, ?_⟩
    intro a ha hb
    simp only [List.map_singleton, List.mem_singleton] at hb
    subst hb
    exact hnotmem ha
  · intro n
    by_cases hn : n = q.1
    · subst hn
      rw [alookup_upsert_self, alookup_upsert_self]
      rfl
    · rw [alookup_upsert_ne hn, alookup_upsert_ne hn]
      exact hsk n
  · intro n
    by_cases hn : n = q.1
    · subst hn
      rw [idxOfL, alookup_upsert_self]
      intro id hid
      rw [Option.getD_some, List.mem_range'_1] at hid
      rw [hlen1]
      exact hid.2
    · rw [idxOfL, alookup_upsert_ne hn]
      intro id hid
      have := hiv n id hid
      rw [hlen1]
      omega
  · intro id hid
    rcases List.mem_append.mp hid with hin | hin
    · have := hvi id hin
      rw [hlen1]
      omega
    · rw [List.mem_range'_1] at hin
      rw [hlen1]
      exact hin.2
  · intro n
    by_cases hn : n = q.1
    · subst hn
      rw [idxOfL, alookup_upsert_self]
      intro id hid
      rw [Option.getD_some, List.mem_range'_1] at hid
      rw [heapGet_append_right hid.1]
      refine userInitEntries_user _ (heapGet_mem ?_)
      omega
    · rw [idxOfL, alookup_upsert_ne hn]
      intro id hid
      rw [heapGet_append_of_lt _ (hiv n id hid)]
      exact htg n id hid
  · have hc2 : acc.items.Perm
        ((acc.users.map fun p => idxOfL acc.userIdx p.1).flatten) := hc
    have hseg : List.map (fun p => idxOfL (upsert q.1
        (List.range' acc.heap.length
          (userInitEntries q.1 q.2 acc.events now).length) acc.userIdx) p.1)
          acc.users =
        List.map (fun p => idxOfL acc.userIdx p.1) acc.users := by
      refine List.map_congr_left ?_
      intro p hp
      have hne : p.1 ≠ q.1 := fun he => hnotmem (he ▸ List.mem_map_of_mem Prod.fst hp)
      simp only [idxOfL, alookup_upsert_ne hne]
    show List.Perm _ (unionIdxL _ _)
    rw [unionIdxL, upsert_of_absent _ hfresh, List.map_append, List.flatten_append,
      hseg]
    simp only [List.map_cons, List.map_nil, List.flatten_cons, List.flatten_nil,
      List.append_nil, idxOfL, alookup_upsert_self, Option.getD_some]
    exact List.Perm.append_right _ hc2

/-- The whole `Storage.init` loop preserves mutual consistency when the
loaded user names are distinct and fresh. -/
theorem mutualWf_fold (now : GoTime) :
    ∀ (users0 : List (String × List Int)) (acc : Storage), mutualWf acc →
      (∀ p ∈ users0, alookup p.1 acc.users = none) →
      (users0.map Prod.fst).Nodup →
      mutualWf (users0.foldl (initStep now) acc) := by
  intro users0
  induction users0 with
  | nil => intro acc h _ _; exact h
  | cons q rest ih =>
    intro acc h hfresh hnd0
    simp only [List.map_cons] at hnd0
    have hnd0' := List.nodup_cons.mp hnd0
    rw [List.foldl_cons]
    refine ih (initStep now acc q)
      (mutualWf_initStep now acc q h (hfresh q (List.mem_cons_self q rest))) ?_ hnd0'.2
    intro p hp
    have hne : p.1 ≠ q.1 := by
      intro he
      exact hnd0'.1 (he ▸ List.mem_map_of_mem Prod.fst hp)
    show alookup p.1 (upsert q.1 q.2 acc.users) = none
    rw [alookup_upsert_ne hne]
    exact hfresh p (List.mem_cons_of_mem q hp)

/-- Re-sorting the global list preserves mutual consistency. -/
theorem mutualWf_resort (s : Storage) (h : mutualWf s) :
    mutualWf { s with items := sortByIds s.heap s.items } := by
  obtain ⟨hnd, hsk, hiv, hvi, htg, hc⟩ := h
  refine ⟨hnd, hsk, hiv, ?_, htg, (sortByIds_perm _ _).trans hc⟩
  intro id hid
  exact hvi id ((sortByIds_perm _ _).mem_iff.mp hid)

/-- The initial build produces mutually consistent structures whenever the
loaded user names are distinct. -/
theorem mutualWf_initState (events : List Event) (limits : Limits)
    (users0 : List (String × List Int)) (now : GoTime)
    (hnd0 : (users0.map Prod.fst).Nodup) :
    mutualWf (Storage.initState events limits users0 now) := by
  unfold Storage.initState
  dsimp only
  refine mutualWf_resort _ (mutualWf_fold now users0 _ ?_ ?_ hnd0)
  · refine ⟨List.nodup_nil, fun n => rfl, ?_, ?_, ?_, List.Perm.refl _⟩
    · intro n id hid
      simp [idxOfL, alookup] at hid
    · intro id hid
      simp at hid
    · intro n id hid
      simp [idxOfL, alookup] at hid
  · intro p _
    rfl

instance (s : Storage) : Decidable (consistent s) :=
  inferInstanceAs (Decidable (s.items.Perm (unionIdxL s.users s.userIdx)))

/-- A consistent storage with one user "a" holding one schedule entry. -/
def setFailStorage : Storage :=
  { events := [], heap := [⟨"a", lagEvent, 5, 0, ⟨utcLoc, 50⟩⟩], items := [0],
    limits := ⟨0, 0, 0, 0⟩, users := [("a", [5])], userIdx := [("a", [0])] }

/-- C6 counterexample: starting from a consistent storage, a `Configure`
whose flush fails returns after the profile and the per-user index were
replaced but before the global list is respliced: the new (empty) index of
user "a" no longer matches the global list still holding the old entry, so
the structures are left mutually inconsistent, refuting the claim for the
flush-failure path of `Set`. -/
theorem c6_counterexample :
    consistent setFailStorage ∧
      (Storage.Set false now0 setFailStorage "a" "7").2 = some StorageErr.flushErr ∧
      ¬consistent (Storage.Set false now0 setFailStorage "a" "7").1 := by
  decide

/-- C6 (amended): from any mutually consistent state, `Subscribe`,
`Unsubscribe` and `CollectDue` (in every success and failure branch), a
`Configure` whose flush succeeds (including its validation-failure branches),
and the initial build over distinct user names, all leave the user map, the
per-user entry index and the global sorted entry list mutually consistent:
matching keys, correctly tagged and valid index entries, and a global list
holding exactly the union of the per-user entries of registered users.
A `Configure` whose flush fails is the one exception (see the
counterexample). -/
theorem c6_mutual_consistency (f : Bool) (now : GoTime) (s : Storage)
    (u v : String) (events : List Event) (limits : Limits)
    (users0 : List (String × List Int)) (h : mutualWf s)
    (hnd0 : (users0.map Prod.fst).Nodup) :
    mutualWf (Storage.Start f s u).1 ∧ mutualWf (Storage.Stop f s u).1 ∧
    mutualWf (Storage.notifications now s).1 ∧
    mutualWf (Storage.Set true now s u v).1 ∧
    mutualWf (Storage.initState events limits users0 now) :=
  ⟨mutualWf_start f s u h, mutualWf_stop f s u h, mutualWf_notifications now s h,
   mutualWf_set now s u v h, mutualWf_initState events limits users0 now hnd0⟩

/-- Witness for C6 (amended) at the empty storage and a one-user load. -/
theorem c6_witness :
    mutualWf emptyStorage ∧
      ([("x", ([1] : List Int))].map Prod.fst).Nodup ∧
      (mutualWf (Storage.Start true emptyStorage "b").1 ∧
        mutualWf (Storage.Stop true emptyStorage "b").1 ∧
        mutualWf (Storage.notifications now0 emptyStorage).1 ∧
        mutualWf (Storage.Set true now0 emptyStorage "b" "5").1 ∧
        mutualWf (Storage.initState [] limitsEx [("x", [1])] now0)) := by
  have hw : mutualWf emptyStorage := by
    refine ⟨List.nodup_nil, fun n => rfl, ?_, ?_, ?_, List.Perm.refl _⟩
    · intro n id hid
      simp [idxOfL, alookup, emptyStorage] at hid
    · intro id hid
      simp [emptyStorage] at hid
    · intro n id hid
      simp [idxOfL, alookup, emptyStorage] at hid
  exact ⟨hw, by decide,
    c6_mutual_consistency true now0 emptyStorage "b" "5" [] limitsEx
      [("x", [1])] hw (by decide)⟩
